import Mathlib

/-
  Verification development for the classease study-companion repository.

  Part 1 embeds the tooltip term-annotator
  (`renderMarkdownWithTooltips` in services/markdownUtils): the markdown
  renderer and the DOM parser are external collaborators, so the embedding
  works over the list of text-node contents of the rendered document and
  models the per-text-node regex matching / splitting loop character by
  character (JS strings become `List Char`).

  Part 2 embeds the chat session manager (`ChatInterface.tsx` plus
  `createChatSession` in the gemini service) as an explicit state machine:
  UI event handlers become pure state-transition functions and the
  asynchronous completion of an external request becomes a separate event.
-/

namespace ClassEase

/-! ### Term annotator: data model -/

/-- A glossary entry, mirroring `KeyTerm` in `types.ts`. -/
structure KeyTerm where
  term : List Char
  definition : List Char
deriving DecidableEq, Repr

/-- JS `\w`: ASCII letters, digits and underscore. -/
def isWordChar (c : Char) : Bool := c.isAlphanum || c == '_'

/-- Whether position `i` of `text` holds a word character (`false` out of range). -/
def wordAt (text : List Char) (i : Nat) : Bool :=
  match text.get? i with
  | some c => isWordChar c
  | none => false

/-- JS regex `\b`: a word boundary at position `i` (between `i-1` and `i`). -/
def wordBoundary (text : List Char) (i : Nat) : Bool :=
  (if i = 0 then false else wordAt text (i - 1)) != wordAt text i

/-- Case-insensitive equality of two character lists (the `i` regex flag). -/
def lowerEq (a b : List Char) : Bool :=
  a.map Char.toLower == b.map Char.toLower

/-- The escaped literal alternative `term` matches at position `i` of `text`,
case-insensitively (regex flag `i`; escaping makes the term fully literal). -/
def matchesAt (text : List Char) (i : Nat) (term : List Char) : Bool :=
  lowerEq ((text.drop i).take term.length) term

/-- Stable insertion of a term into a list sorted by descending term length:
`x` goes after strictly longer terms and before ties (JS `sort` is stable). -/
def insertTerm (x : KeyTerm) : List KeyTerm → List KeyTerm
  | [] => [x]
  | y :: ys =>
    if x.term.length < y.term.length then y :: insertTerm x ys
    else x :: y :: ys

/-- `[...keyTerms].sort((a, b) => b.term.length - a.term.length)`:
stable sort by descending term length. -/
def sortTerms : List KeyTerm → List KeyTerm
  | [] => []
  | x :: xs => insertTerm x (sortTerms xs)

/-- The combined pattern `\b(t1|t2|...)\b` tried at position `i`: the leading
boundary must hold, then the first alternative (in sorted order) that matches
literally and is followed by a word boundary wins (regex backtracking). -/
def matchAt (text : List Char) (sorted : List KeyTerm) (i : Nat) : Option KeyTerm :=
  if wordBoundary text i then
    sorted.find? (fun t => matchesAt text i t.term && wordBoundary text (i + t.term.length))
  else none

/-- Scan for the leftmost match at a position in `[i, i + remaining)`. -/
def findFromAux (text : List Char) (sorted : List KeyTerm) :
    Nat → Nat → Option (Nat × KeyTerm)
  | _, 0 => none
  | i, r + 1 =>
    match matchAt text sorted i with
    | some t => some (i, t)
    | none => findFromAux text sorted (i + 1) r

/-- `pattern.exec` with `lastIndex = pos`: leftmost match at a position in
`[pos, text.length]` (a zero-length alternative may match at the very end). -/
def findFrom (text : List Char) (sorted : List KeyTerm) (pos : Nat) :
    Option (Nat × KeyTerm) :=
  findFromAux text sorted pos (text.length + 1 - pos)

/-- One output run of the annotator: an untouched slice of text, or a
tooltip-wrapped span showing `surface` (the matched source text) whose hover
popup carries the glossary entry (canonical term text and definition). -/
inductive Run where
  | plain (s : List Char)
  | wrapped (surface : List Char) (term : KeyTerm)
deriving DecidableEq, Repr

/-- The text a run displays in the document flow (the popup is hover-only). -/
def Run.visible : Run → List Char
  | .plain s => s
  | .wrapped s _ => s

/-- `sortedTerms.find(t => t.term.toLowerCase() === matchedTerm.toLowerCase())`. -/
def findDef (sorted : List KeyTerm) (matched : List Char) : Option KeyTerm :=
  sorted.find? (fun t => lowerEq t.term matched)

/-- Emit the node for one regex match: the tooltip wrapper when a glossary
entry is found for the matched text, otherwise (unreachable fallback in the
source) a plain text node with the matched text. -/
def emitRun (sorted : List KeyTerm) (matched : List Char) : Run :=
  match findDef sorted matched with
  | some t => Run.wrapped matched t
  | none => Run.plain matched

/-- The manual `while ((match = pattern.exec(text)) !== null)` loop of
`renderMarkdownWithTooltips`, with explicit fuel: `none` means the loop did
not finish within `fuel` iterations (the JS loop never advances `lastIndex`
past a zero-length match, so it can genuinely run forever). -/
def annotateLoop (text : List Char) (sorted : List KeyTerm) :
    Nat → Nat → List Run → Option (List Run)
  | 0, _, _ => none
  | fuel + 1, lastIndex, acc =>
    match findFrom text sorted lastIndex with
    | none =>
      some (acc ++ (if lastIndex < text.length then [Run.plain (text.drop lastIndex)] else []))
    | some (i, t) =>
      annotateLoop text sorted fuel (i + t.term.length)
        (acc ++ (if lastIndex < i then [Run.plain ((text.drop lastIndex).take (i - lastIndex))] else [])
             ++ [emitRun sorted ((text.drop i).take t.term.length)])

/-- Processing of one DOM text node (body of the `textNodes.forEach`): test
the pattern, and if it matches, split the node into plain and wrapped runs.
Fuel `text.length + 1` suffices for every positive-length match sequence. -/
def processTextNode (text : List Char) (terms : List KeyTerm) : Option (List Run) :=
  match findFrom text (sortTerms terms) 0 with
  | none => some [Run.plain text]
  | some _ => annotateLoop text (sortTerms terms) (text.length + 1) 0 []

/-- Process every text node of the rendered document in order. -/
def annotateAll (terms : List KeyTerm) : List (List Char) → Option (List (List Run))
  | [] => some []
  | n :: ns =>
    match processTextNode n terms, annotateAll terms ns with
    | some r, some rs => some (r :: rs)
    | _, _ => none

/-- `renderMarkdownWithTooltips`, viewed at the level of the rendered
document's text nodes: with an empty glossary the document is returned
unchanged, otherwise every text node is run through the matching loop. -/
def renderMarkdownWithTooltips (nodes : List (List Char)) (keyTerms : List KeyTerm) :
    Option (List (List Run)) :=
  if keyTerms.isEmpty then some (nodes.map (fun t => [Run.plain t]))
  else annotateAll keyTerms nodes

/-! ### Term annotator: lemmas -/

/-- A successful scan yields a match position at or after the start position,
and the combined pattern really matches there. -/
theorem findFromAux_spec (text : List Char) (sorted : List KeyTerm) :
    ∀ r i j t, findFromAux text sorted i r = some (j, t) →
      i ≤ j ∧ matchAt text sorted j = some t := by
  intro r
  induction r with
  | zero => intro i j t h; simp [findFromAux] at h
  | succ n ih =>
    intro i j t h
    rw [findFromAux] at h
    cases hm : matchAt text sorted i with
    | some t0 =>
      rw [hm] at h
      cases h
      exact ⟨Nat.le_refl _, hm⟩
    | none =>
      rw [hm] at h
      have h2 := ih (i + 1) j t h
      exact ⟨Nat.le_trans (Nat.le_succ i) h2.1, h2.2⟩

/-- `findFrom` never reports a match before its start position. -/
theorem findFrom_le (text : List Char) (sorted : List KeyTerm) (pos j : Nat) (t : KeyTerm)
    (h : findFrom text sorted pos = some (j, t)) : pos ≤ j :=
  (findFromAux_spec text sorted _ pos j t h).1

/-- What a successful `matchAt` guarantees: word boundaries on both sides and
a literal case-insensitive match of the term. -/
theorem matchAt_spec (text : List Char) (sorted : List KeyTerm) (i : Nat) (t : KeyTerm)
    (h : matchAt text sorted i = some t) :
    wordBoundary text i = true ∧ matchesAt text i t.term = true
      ∧ wordBoundary text (i + t.term.length) = true := by
  unfold matchAt at h
  split at h
  · have hp := List.find?_some h
    have hp2 := Bool.and_eq_true_iff.mp hp
    exact ⟨by assumption, hp2.1, hp2.2⟩
  · exact absurd h (by simp)

/-- The emitted run for a match always displays exactly the matched text. -/
theorem emitRun_visible (sorted : List KeyTerm) (m : List Char) :
    (emitRun sorted m).visible = m := by
  unfold emitRun
  cases findDef sorted m <;> rfl

/-- Splitting a suffix at a later match position and reassembling the three
slices gives back the suffix. -/
theorem slice_reassemble (text : List Char) (li i L : Nat) (h : li ≤ i) :
    ((text.drop li).take (i - li)) ++ (((text.drop i).take L) ++ text.drop (i + L))
      = text.drop li := by
  have h2 : text.drop (i + L) = (text.drop i).drop L := by
    rw [List.drop_drop]
  rw [h2, List.take_append_drop]
  have h3 : text.drop i = (text.drop li).drop (i - li) := by
    rw [List.drop_drop, Nat.add_sub_cancel' h]
  rw [h3, List.take_append_drop]

/-- Loop invariant of the match loop: if it terminates, the visible text of
what it produced is the visible text of the accumulator followed by the
still-unscanned suffix of the node. -/
theorem annotateLoop_visible (text : List Char) (sorted : List KeyTerm) :
    ∀ fuel li acc runs, annotateLoop text sorted fuel li acc = some runs →
      (runs.map Run.visible).flatten = (acc.map Run.visible).flatten ++ text.drop li := by
  intro fuel
  induction fuel with
  | zero => intro li acc runs h; simp [annotateLoop] at h
  | succ n ih =>
    intro li acc runs h
    rw [annotateLoop] at h
    cases hf : findFrom text sorted li with
    | none =>
      rw [hf] at h
      cases h
      by_cases hlt : li < text.length
      · simp [hlt, Run.visible]
      · simp [hlt, List.drop_eq_nil_of_le (Nat.le_of_not_lt hlt)]
    | some p =>
      obtain ⟨i, t⟩ := p
      rw [hf] at h
      have hle : li ≤ i := findFrom_le text sorted li i t hf
      have hrec := ih _ _ _ h
      rw [hrec]
      rw [List.map_append, List.map_append, List.flatten_append, List.flatten_append]
      simp only [List.map_cons, List.map_nil, List.flatten_cons, List.flatten_nil,
        emitRun_visible, List.append_nil, List.append_assoc]
      by_cases hlt : li < i
      · simp only [hlt, if_pos, List.map_cons, List.map_nil, List.flatten_cons,
          List.flatten_nil, Run.visible, List.append_nil, List.append_assoc]
        rw [slice_reassemble text li i t.term.length hle]
      · have : li = i := Nat.le_antisymm hle (Nat.le_of_not_lt hlt)
        subst this
        simp only [hlt, if_neg, not_false_iff, List.map_nil, List.flatten_nil,
          List.nil_append]
        have h4 := slice_reassemble text li li t.term.length (Nat.le_refl li)
        simp only [Nat.sub_self, List.take_zero, List.nil_append] at h4
        rw [h4]

/-- Per-node content preservation: a terminating annotation of one text node
reproduces the node's text exactly. -/
theorem processTextNode_visible (text : List Char) (terms : List KeyTerm)
    (runs : List Run) (h : processTextNode text terms = some runs) :
    (runs.map Run.visible).flatten = text := by
  unfold processTextNode at h
  cases hf : findFrom text (sortTerms terms) 0 with
  | none =>
    rw [hf] at h
    cases h
    simp [Run.visible]
  | some p =>
    rw [hf] at h
    have := annotateLoop_visible text (sortTerms terms) _ _ _ _ h
    simpa using this

/-- Document-level content preservation for the non-empty-glossary path. -/
theorem annotateAll_visible (terms : List KeyTerm) :
    ∀ nodes out, annotateAll terms nodes = some out →
      (out.map (fun runs => (runs.map Run.visible).flatten)).flatten = nodes.flatten := by
  intro nodes
  induction nodes with
  | nil => intro out h; cases h; rfl
  | cons n ns ih =>
    intro out h
    rw [annotateAll] at h
    cases hn : processTextNode n terms with
    | none => rw [hn] at h; exact absurd h (by simp)
    | some r =>
      rw [hn] at h
      cases hns : annotateAll terms ns with
      | none => rw [hns] at h; exact absurd h (by simp)
      | some rs =>
        rw [hns] at h
        cases h
        simp only [List.map_cons, List.flatten_cons]
        rw [processTextNode_visible n terms r hn, ih rs hns]

/-! ### Claim C1 -/

/-- A sample glossary entry used in concrete checks. -/
def actTerm : KeyTerm := ⟨"Act".toList, "a formal decision".toList⟩

/-- Claim C1: for every rendered markdown document (its list of text nodes)
and every glossary, whenever the annotator produces a result, concatenating
the visible text of all plain and tooltip-wrapped runs yields exactly the
plain-text content of the renderer's output — no characters added, dropped,
reordered, re-cased, or whitespace changed; annotation changes wrapping only. -/
theorem claim_C1_content_preserved (nodes : List (List Char)) (terms : List KeyTerm)
    (out : List (List Run)) (h : renderMarkdownWithTooltips nodes terms = some out) :
    (out.map (fun runs => (runs.map Run.visible).flatten)).flatten = nodes.flatten := by
  unfold renderMarkdownWithTooltips at h
  by_cases he : terms.isEmpty
  · rw [if_pos he] at h
    cases h
    induction nodes with
    | nil => rfl
    | cons n ns ih => simpa [Run.visible] using ih
  · rw [if_neg he] at h
    exact annotateAll_visible terms nodes out h

/-- Witness for C1 at a concrete input containing a real match. -/
theorem claim_C1_witness :
    (([[Run.plain "The ".toList, Run.wrapped "Act".toList actTerm]].map
        (fun runs => (runs.map Run.visible).flatten)).flatten : List Char)
      = [("The Act".toList)].flatten :=
  claim_C1_content_preserved ["The Act".toList] [actTerm] _ (by decide)

/-! ### Claim C3 -/

/-- Every member of `insertTerm x l` is `x` or a member of `l`. -/
theorem mem_insertTerm {x z : KeyTerm} : ∀ {l : List KeyTerm},
    z ∈ insertTerm x l → z = x ∨ z ∈ l := by
  intro l
  induction l with
  | nil =>
    intro h
    rw [insertTerm] at h
    exact Or.inl (List.mem_singleton.mp h)
  | cons y ys ih =>
    intro h
    rw [insertTerm] at h
    split at h
    · rcases List.mem_cons.mp h with h1 | h2
      · exact Or.inr (List.mem_cons.mpr (Or.inl h1))
      · rcases ih h2 with h3 | h4
        · exact Or.inl h3
        · exact Or.inr (List.mem_cons.mpr (Or.inr h4))
    · rcases List.mem_cons.mp h with h1 | h2
      · exact Or.inl h1
      · exact Or.inr h2

/-- Stable insertion preserves the descending-length ordering. -/
theorem insertTerm_pairwise (x : KeyTerm) :
    ∀ l : List KeyTerm, l.Pairwise (fun a b => b.term.length ≤ a.term.length) →
      (insertTerm x l).Pairwise (fun a b => b.term.length ≤ a.term.length) := by
  intro l
  induction l with
  | nil =>
    intro _
    rw [insertTerm]
    exact List.pairwise_singleton _ _
  | cons y ys ih =>
    intro h
    rw [List.pairwise_cons] at h
    obtain ⟨hy, hys⟩ := h
    rw [insertTerm]
    split
    next hlt =>
      rw [List.pairwise_cons]
      constructor
      · intro z hz
        rcases mem_insertTerm hz with rfl | hz2
        · exact Nat.le_of_lt hlt
        · exact hy z hz2
      · exact ih hys
    next hge =>
      rw [List.pairwise_cons]
      constructor
      · intro z hz
        rcases List.mem_cons.mp hz with rfl | hz2
        · exact Nat.le_of_not_lt hge
        · exact Nat.le_trans (hy z hz2) (Nat.le_of_not_lt hge)
      · exact List.pairwise_cons.mpr ⟨hy, hys⟩

/-- `sortTerms` always yields a list ordered by descending term length. -/
theorem sortTerms_pairwise :
    ∀ ts : List KeyTerm,
      (sortTerms ts).Pairwise (fun a b => b.term.length ≤ a.term.length) := by
  intro ts
  induction ts with
  | nil => exact List.Pairwise.nil
  | cons x xs ih =>
    rw [sortTerms]
    exact insertTerm_pairwise x (sortTerms xs) ih

/-- An apostrophe, written by code point to keep it out of string literals. -/
def apos : Char := Char.ofNat 39

/-- The characters of the phrase `Newton's Second Law`. -/
def nslChars : List Char := "Newton".toList ++ [apos] ++ "s Second Law".toList

/-- Glossary entry for the short term `Law`. -/
def lawTerm : KeyTerm := ⟨"Law".toList, "a rule".toList⟩

/-- Glossary entry for the long phrase `Newton's Second Law`. -/
def nslTerm : KeyTerm := ⟨nslChars, "force equals mass times acceleration".toList⟩

/-- Claim C3: the glossary is ordered by descending term-text length before
the combined alternation pattern is built (ties keeping original order, shown
on a concrete tie), so the longest term wins on overlapping matches: with
terms `Law` and `Newton's Second Law`, the text `Newton's Second Law states`
is wrapped once as the whole phrase, not as smaller pieces. -/
theorem claim_C3_longest_match :
    (∀ ts : List KeyTerm,
      (sortTerms ts).Pairwise (fun a b => b.term.length ≤ a.term.length))
    ∧ sortTerms [⟨"ab".toList, "x".toList⟩, ⟨"cd".toList, "y".toList⟩,
        ⟨"efghi".toList, "z".toList⟩]
      = [⟨"efghi".toList, "z".toList⟩, ⟨"ab".toList, "x".toList⟩,
        ⟨"cd".toList, "y".toList⟩]
    ∧ processTextNode (nslChars ++ " states".toList) [lawTerm, nslTerm]
      = some [Run.wrapped nslChars nslTerm, Run.plain " states".toList] :=
  ⟨sortTerms_pairwise, by decide, by decide⟩

/-! ### Claim C4 -/

/-- Glossary entry with canonical lower-case term text `dna`. -/
def dnaTerm : KeyTerm := ⟨"dna".toList, "genetic material".toList⟩

/-- Claim C4: a term matches only as a whole word (word boundaries on both
sides of every match) and case-insensitively; the wrapped span displays the
exact matched surface text in its original casing while the attached hover
content carries the glossary entry's canonical term text and definition:
term `Act` in `Reaction to the Act` wraps only the standalone `Act`, and
term `dna` in `DNA replication` wraps the surface text `DNA` keyed to the
canonical entry `dna`. -/
theorem claim_C4_whole_word_case_insensitive (text : List Char)
    (sorted : List KeyTerm) (i : Nat) (t : KeyTerm)
    (h : matchAt text sorted i = some t) :
    (wordBoundary text i = true ∧ matchesAt text i t.term = true
      ∧ wordBoundary text (i + t.term.length) = true)
    ∧ processTextNode "Reaction to the Act".toList [actTerm]
      = some [Run.plain "Reaction to the ".toList, Run.wrapped "Act".toList actTerm]
    ∧ processTextNode "DNA replication".toList [dnaTerm]
      = some [Run.wrapped "DNA".toList dnaTerm, Run.plain " replication".toList] :=
  ⟨matchAt_spec text sorted i t h, by decide, by decide⟩

/-- Witness for C4 at the concrete match of `dna` against `DNA`. -/
theorem claim_C4_witness :
    (wordBoundary "DNA replication".toList 0 = true
      ∧ matchesAt "DNA replication".toList 0 dnaTerm.term = true
      ∧ wordBoundary "DNA replication".toList (0 + dnaTerm.term.length) = true)
    ∧ processTextNode "Reaction to the Act".toList [actTerm]
      = some [Run.plain "Reaction to the ".toList, Run.wrapped "Act".toList actTerm]
    ∧ processTextNode "DNA replication".toList [dnaTerm]
      = some [Run.wrapped "DNA".toList dnaTerm, Run.plain " replication".toList] :=
  claim_C4_whole_word_case_insensitive "DNA replication".toList (sortTerms [dnaTerm])
    0 dnaTerm (by decide)

/-! ### Claim C9 -/

/-- A malformed glossary entry whose term text is empty. -/
def emptyTerm : KeyTerm := ⟨[], "bad entry".toList⟩

/-- Claim C9 (code bug): the source does NOT skip empty-term glossary
entries. The empty alternative yields a zero-length match at the first word
boundary (third conjunct), so the node is not left alone, and since the
`exec` loop never advances `lastIndex` past a zero-length match, the loop
never terminates: no amount of fuel completes it (first conjunct), so
annotation of the text `a` diverges instead of behaving as if the entry
were absent. -/
theorem claim_C9_empty_term_not_skipped :
    (∀ fuel : Nat, ∀ acc : List Run,
      annotateLoop "a".toList [emptyTerm] fuel 0 acc = none)
    ∧ processTextNode "a".toList [emptyTerm] = none
    ∧ matchAt "a".toList [emptyTerm] 0 = some emptyTerm := by
  have key : ∀ fuel : Nat, ∀ acc : List Run,
      annotateLoop "a".toList [emptyTerm] fuel 0 acc = none := by
    intro fuel
    induction fuel with
    | zero => intro acc; rfl
    | succ n ih =>
      intro acc
      show annotateLoop "a".toList [emptyTerm] n 0
        (acc ++ [] ++ [emitRun [emptyTerm] []]) = none
      exact ih _
  refine ⟨key, ?_, by decide⟩
  show annotateLoop "a".toList (sortTerms [emptyTerm]) ("a".toList.length + 1) 0 [] = none
  exact key _ _

/-! ### Conversational session manager: data model -/

/-- Speaker role of one conversation turn (`Message.role`). -/
inductive Role where
  | user
  | model
deriving DecidableEq, Repr

/-- One conversation turn (`Message` in `ChatInterface.tsx`). -/
structure Msg where
  role : Role
  content : List Char
deriving DecidableEq, Repr

/-- Which handler started the request that a completion belongs to. -/
inductive Origin where
  | send
  | regen
  | edit
deriving DecidableEq, Repr

/-- Outcome of the raw external single-turn request (`chat.sendMessage`):
a reply text (possibly empty, covering an undefined `response.text`), or a
thrown error. -/
inductive ExtOutcome where
  | ok (text : List Char)
  | err
deriving DecidableEq, Repr

/-- JS `String.prototype.trim` on a character list. -/
def trimJS (s : List Char) : List Char :=
  (((s.dropWhile Char.isWhitespace).reverse).dropWhile Char.isWhitespace).reverse

/-- Fallback reply substituted by `createChatSession` for an empty
`response.text` (the apostrophes are inserted by code point). -/
def emptyReplyFallback : List Char :=
  "I".toList ++ [apos] ++ "m sorry, I couldn".toList ++ [apos]
    ++ "t generate a response.".toList

/-- Fallback reply returned by `createChatSession` when the external request
throws. -/
def errFallback : List Char :=
  "Sorry, I encountered an error while processing your request.".toList

/-- Fallback appended by `processMessage`'s own catch branch. -/
def connectFallback : List Char :=
  "Sorry, I had trouble connecting. Please try again.".toList

/-- `ChatSession.sendMessage` from `createChatSession`: the external outcome
is converted to a reply string inside a try/catch, so the function itself
never rejects (`Except.error` would model a propagated rejection). -/
def sendMessage : ExtOutcome → Except Unit (List Char)
  | .ok t => Except.ok (if t = [] then emptyReplyFallback else t)
  | .err => Except.ok errFallback

/-- The reply string `sendMessage` resolves with. -/
def okReply : ExtOutcome → List Char
  | .ok t => if t = [] then emptyReplyFallback else t
  | .err => errFallback

/-- The state owned by `ChatInterface`: the visible message list, the
`isLoading` flag, the history the current chat session handle was bound to
(`none` = no session yet), the requests whose completions are still pending,
and the staged `classease_pending_query` localStorage slot. -/
structure SessionState where
  messages : List Msg
  isLoading : Bool
  sessionHist : Option (List Msg)
  inflight : List Origin
  pending : Option (List Char)
deriving DecidableEq, Repr

/-- `processMessage` up to the `await`: guard, append the trimmed user turn,
set loading, and issue the request. -/
def processMessage (st : SessionState) (text : List Char) : SessionState :=
  if trimJS text = [] then st
  else
    match st.sessionHist with
    | none => st
    | some _ =>
      if st.isLoading then st
      else
        { st with
          messages := st.messages ++ [⟨Role.user, trimJS text⟩],
          isLoading := true,
          inflight := st.inflight ++ [Origin.send] }

/-- Resolution of the oldest in-flight request: the continuation after the
`await` in the handler that started it. `processMessage` appends the resolved
reply (or, in its catch branch, a connection fallback); the regenerate and
edit handlers append the reply on success but their catch branches only log. -/
def completeReply (st : SessionState) (o : ExtOutcome) : SessionState :=
  match st.inflight with
  | [] => st
  | orig :: rest =>
    match orig, sendMessage o with
    | Origin.send, Except.ok s =>
      { st with messages := st.messages ++ [⟨Role.model, s⟩],
                isLoading := false, inflight := rest }
    | Origin.send, Except.error _ =>
      { st with messages := st.messages ++ [⟨Role.model, connectFallback⟩],
                isLoading := false, inflight := rest }
    | _, Except.ok s =>
      { st with messages := st.messages ++ [⟨Role.model, s⟩],
                isLoading := false, inflight := rest }
    | _, Except.error _ =>
      { st with isLoading := false, inflight := rest }

/-- `handleClearChat` (after the confirm): `initChat([])` rebinds the handle
to an empty history and empties the message list. It does not touch
`isLoading` and cannot cancel an already in-flight request. -/
def handleClearChat (st : SessionState) : SessionState :=
  { st with messages := [], sessionHist := some [] }

/-- Index of the last `user` turn, scanning from the end (`handleRegenerate`'s
backwards loop). -/
def lastUserIndex : List Msg → Option Nat
  | [] => none
  | m :: rest =>
    match lastUserIndex rest with
    | some i => some (i + 1)
    | none => if m.role = Role.user then some 0 else none

/-- Content of the message at index `i`. -/
def contentAt (msgs : List Msg) (i : Nat) : List Char :=
  (msgs.getD i ⟨Role.user, []⟩).content

/-- `handleRegenerate` up to the `await`: guard, find the last user turn,
truncate before it, rebind the session to the truncated history, re-append
that user turn and issue the request. -/
def handleRegenerate (st : SessionState) : SessionState :=
  if st.messages.isEmpty then st
  else if st.isLoading then st
  else
    match lastUserIndex st.messages with
    | none => st
    | some i =>
      { st with
        messages := st.messages.take i ++ [⟨Role.user, contentAt st.messages i⟩],
        isLoading := true,
        sessionHist := some (st.messages.take i),
        inflight := st.inflight ++ [Origin.regen] }

/-- `submitEdit` up to the `await` (with the editing index as argument):
an empty trimmed text cancels, otherwise truncate strictly before the edited
index, rebind the session to that prefix, append the new user turn and issue
the request. The source has no `isLoading` guard here. -/
def submitEdit (st : SessionState) (idx : Nat) (newText : List Char) : SessionState :=
  if trimJS newText = [] then st
  else
    { st with
      messages := st.messages.take idx ++ [⟨Role.user, trimJS newText⟩],
      isLoading := true,
      sessionHist := some (st.messages.take idx),
      inflight := st.inflight ++ [Origin.edit] }

/-- The query string `handleAskTutor` stages for a highlighted selection. -/
def askQuery (sel : List Char) : List Char :=
  "Teach me \"".toList ++ (sel ++ "\"".toList)

/-- `handleAskTutor` in `ReportView.tsx`: with a non-empty selection, write
the query into the pending slot (the notification event is modelled as the
separate `trigger` event consumed by `checkForPendingQuery`). -/
def handleAskTutor (st : SessionState) (sel : List Char) : SessionState :=
  if sel = [] then st
  else { st with pending := some (askQuery sel) }

/-- `checkForPendingQuery`: when a query is staged, the session handle is
ready and nothing is loading, clear the slot and process the query in the
same synchronous step. -/
def checkForPendingQuery (st : SessionState) : SessionState :=
  match st.pending with
  | none => st
  | some q =>
    match st.sessionHist with
    | none => st
    | some _ =>
      if st.isLoading then st
      else processMessage { st with pending := none } q

/-- The UI events that drive the session state machine. -/
inductive Event where
  | sendStart (text : List Char)
  | complete (o : ExtOutcome)
  | clear
  | regenStart
  | editStart (idx : Nat) (newText : List Char)
  | stage (sel : List Char)
  | trigger
deriving DecidableEq, Repr

/-- One step of the session state machine. -/
def step (st : SessionState) : Event → SessionState
  | .sendStart t => processMessage st t
  | .complete o => completeReply st o
  | .clear => handleClearChat st
  | .regenStart => handleRegenerate st
  | .editStart idx t => submitEdit st idx t
  | .stage sel => handleAskTutor st sel
  | .trigger => checkForPendingQuery st

/-- Run a sequence of events. -/
def runEvents (st : SessionState) (evs : List Event) : SessionState :=
  evs.foldl step st

/-- The state after the component mounts (`initChat([])`). -/
def initState : SessionState :=
  ⟨[], false, some [], [], none⟩

/-- A history is a valid transcript prefix: every `model` turn is immediately
preceded by a `user` turn (recursive check tracking the previous role). -/
def wfFrom : Option Role → List Msg → Bool
  | _, [] => true
  | prev, m :: rest =>
    (!(m.role == Role.model) || (prev == some Role.user)) && wfFrom (some m.role) rest

/-- Whether a message list contains no orphaned `model` turn. -/
def wellFormed (l : List Msg) : Bool :=
  wfFrom none l

/-! ### Session manager: lemmas -/

/-- `sendMessage` always resolves, with the reply `okReply` computes. -/
theorem sendMessage_eq_ok (o : ExtOutcome) :
    sendMessage o = Except.ok (okReply o) := by
  cases o <;> rfl

/-- The reply `sendMessage` resolves with is never the empty string. -/
theorem okReply_ne_nil (o : ExtOutcome) : okReply o ≠ [] := by
  cases o with
  | ok t =>
    rw [okReply]
    by_cases ht : t = []
    · rw [if_pos ht]; decide
    · rw [if_neg ht]; exact ht
  | err => decide

/-- Trimming a list with a non-whitespace head is never empty. -/
theorem trimJS_cons_ne_nil (c : Char) (l : List Char)
    (hc : c.isWhitespace = false) : trimJS (c :: l) ≠ [] := by
  unfold trimJS
  rw [List.dropWhile_cons, hc]
  simp only [Bool.false_eq_true, if_false, ne_eq, List.reverse_eq_nil_iff,
    List.dropWhile_eq_nil_iff, List.mem_reverse, not_forall]
  exact ⟨c, List.mem_cons_self c l, by simp [hc]⟩

/-- The staged ask-tutor query starts with the letter `T`. -/
theorem askQuery_cons (sel : List Char) :
    askQuery sel = 'T' :: ("each me \"".toList ++ (sel ++ "\"".toList)) := rfl

/-- The staged ask-tutor query survives trimming non-empty. -/
theorem trim_askQuery_ne_nil (sel : List Char) : trimJS (askQuery sel) ≠ [] := by
  rw [askQuery_cons]
  exact trimJS_cons_ne_nil _ _ (by decide)

/-- An empty message list has no user turn. -/
theorem lastUserIndex_nil : lastUserIndex [] = none := rfl

/-! ### Claim C2 -/

/-- Claim C2 (code bug): the transcript-prefix invariant is violated by a
reachable interleaving. From a fresh session, `send "a"` goes in flight;
`handleClearChat` (which has no in-flight guard and does not invalidate the
superseded completion) empties the history; the completion then appends its
`model` turn to the emptied list, leaving the orphaned history
`[model "r"]`, which is not well-formed. -/
theorem claim_C2_orphaned_model_turn :
    (runEvents initState
        [Event.sendStart "a".toList, Event.clear,
          Event.complete (ExtOutcome.ok "r".toList)]).messages
      = [⟨Role.model, "r".toList⟩]
    ∧ wellFormed (runEvents initState
        [Event.sendStart "a".toList, Event.clear,
          Event.complete (ExtOutcome.ok "r".toList)]).messages = false := by
  constructor <;> decide

/-! ### Claim C5 -/

/-- Claim C5: `handleRegenerate`, from an idle state whose history has a last
`user` turn at index `i`, truncates the history at that turn (dropping the
subsequent `model` reply and everything after), rebinds the session handle to
the truncated prefix, resubmits that same user text, and on completion the
history is the prefix plus that user turn and the fresh reply; with no `user`
turn in the history the handler changes nothing. -/
theorem claim_C5_regenerate_truncation (st : SessionState) (i : Nat) (o : ExtOutcome)
    (h1 : st.isLoading = false) (h2 : st.inflight = [])
    (h3 : lastUserIndex st.messages = some i) :
    (runEvents st [Event.regenStart, Event.complete o]).messages
      = st.messages.take i
        ++ [⟨Role.user, contentAt st.messages i⟩, ⟨Role.model, okReply o⟩]
    ∧ (step st Event.regenStart).sessionHist = some (st.messages.take i)
    ∧ (∀ st2 : SessionState, lastUserIndex st2.messages = none →
        step st2 Event.regenStart = st2) := by
  have hne : st.messages.isEmpty = false := by
    cases hm : st.messages with
    | nil => rw [hm] at h3; exact absurd h3 (by simp [lastUserIndex_nil])
    | cons a l => rfl
  have hregen : step st Event.regenStart
      = { st with
          messages := st.messages.take i ++ [⟨Role.user, contentAt st.messages i⟩],
          isLoading := true,
          sessionHist := some (st.messages.take i),
          inflight := st.inflight ++ [Origin.regen] } := by
    show handleRegenerate st = _
    rw [handleRegenerate, hne, h1, h3]
    rfl
  refine ⟨?_, by rw [hregen], ?_⟩
  · show (completeReply (step st Event.regenStart) o).messages = _
    rw [hregen]
    show (completeReply _ o).messages = _
    rw [completeReply]
    simp only [h2, List.nil_append]
    rw [sendMessage_eq_ok o]
    simp [List.append_assoc]
  · intro st2 h4
    show handleRegenerate st2 = st2
    rw [handleRegenerate, h4]
    cases st2.messages.isEmpty <;> cases st2.isLoading <;> rfl

/-- A two-turn history `[user a, model r1]` for the concrete regeneration. -/
def exPrev : List Msg := [⟨Role.user, "a".toList⟩, ⟨Role.model, "r1".toList⟩]

/-- The idle session state holding `exPrev`. -/
def exSt : SessionState := ⟨exPrev, false, some exPrev, [], none⟩

/-- Witness for C5: regenerating `[user a, model r1]` keeps exactly the one
user turn and replaces the reply. -/
theorem claim_C5_witness :
    (runEvents exSt [Event.regenStart, Event.complete (ExtOutcome.ok "r2".toList)]).messages
      = exSt.messages.take 0
        ++ [⟨Role.user, contentAt exSt.messages 0⟩,
            ⟨Role.model, okReply (ExtOutcome.ok "r2".toList)⟩]
    ∧ (step exSt Event.regenStart).sessionHist = some (exSt.messages.take 0)
    ∧ (∀ st2 : SessionState, lastUserIndex st2.messages = none →
        step st2 Event.regenStart = st2) :=
  claim_C5_regenerate_truncation exSt 0 (ExtOutcome.ok "r2".toList) rfl rfl (by decide)

/-! ### Claim C6 -/

/-- Claim C6: `submitEdit`, invoked from an idle state on the index of an
existing `user` turn with a newText that is non-empty after trimming,
truncates the history to exclude that index and everything after it, rebinds
the handle to that prefix, appends a new `user` turn with the trimmed
newText, and completes like `send`, appending the fresh reply. -/
theorem claim_C6_edit_truncation (st : SessionState) (idx : Nat) (t : List Char)
    (o : ExtOutcome) (m : Msg)
    (h1 : st.isLoading = false) (h2 : st.inflight = [])
    (h3 : st.messages.get? idx = some m) (h4 : m.role = Role.user)
    (h5 : trimJS t ≠ []) :
    (runEvents st [Event.editStart idx t, Event.complete o]).messages
      = st.messages.take idx ++ [⟨Role.user, trimJS t⟩, ⟨Role.model, okReply o⟩]
    ∧ (step st (Event.editStart idx t)).sessionHist = some (st.messages.take idx) := by
  have hedit : step st (Event.editStart idx t)
      = { st with
          messages := st.messages.take idx ++ [⟨Role.user, trimJS t⟩],
          isLoading := true,
          sessionHist := some (st.messages.take idx),
          inflight := st.inflight ++ [Origin.edit] } := by
    show submitEdit st idx t = _
    rw [submitEdit, if_neg h5]
  refine ⟨?_, by rw [hedit]⟩
  show (completeReply (step st (Event.editStart idx t)) o).messages = _
  rw [hedit]
  show (completeReply _ o).messages = _
  rw [completeReply]
  simp only [h2, List.nil_append]
  rw [sendMessage_eq_ok o]
  simp [List.append_assoc]

/-- A four-turn history `[user a, model r1, user b, model r2]`. -/
def exFour : List Msg :=
  [⟨Role.user, "a".toList⟩, ⟨Role.model, "r1".toList⟩,
   ⟨Role.user, "b".toList⟩, ⟨Role.model, "r2".toList⟩]

/-- The idle session state holding `exFour`. -/
def exStFour : SessionState := ⟨exFour, false, some exFour, [], none⟩

/-- Witness for C6: editing turn `b` (index 2) to `b2` yields
`[user a, model r1, user b2, model <reply>]`. -/
theorem claim_C6_witness :
    (runEvents exStFour
        [Event.editStart 2 "b2".toList,
          Event.complete (ExtOutcome.ok "rb2".toList)]).messages
      = exStFour.messages.take 2
        ++ [⟨Role.user, trimJS "b2".toList⟩,
            ⟨Role.model, okReply (ExtOutcome.ok "rb2".toList)⟩]
    ∧ (step exStFour (Event.editStart 2 "b2".toList)).sessionHist
      = some (exStFour.messages.take 2) :=
  claim_C6_edit_truncation exStFour 2 "b2".toList (ExtOutcome.ok "rb2".toList)
    ⟨Role.user, "b".toList⟩ rfl rfl (by decide) rfl (by decide)

/-! ### Claim C7 -/

/-- Claim C7: an external request failure never propagates past the session
manager. Whatever handler started the request (`send`, regenerate, or edit),
the failing completion is absorbed by appending a synthetic apologetic
`model` turn carrying the fixed fallback text, and the manager returns to
idle, so the caller only ever observes a completed turn. -/
theorem claim_C7_failure_absorbed (st : SessionState) (orig : Origin)
    (rest : List Origin) (h : st.inflight = orig :: rest) :
    step st (Event.complete ExtOutcome.err)
      = { st with
          messages := st.messages ++ [⟨Role.model, errFallback⟩],
          isLoading := false,
          inflight := rest } := by
  show completeReply st ExtOutcome.err = _
  rw [completeReply, h]
  cases orig <;> rfl

/-- Witness for C7 with a failing `send` from the two-turn example state. -/
theorem claim_C7_witness :
    step { exSt with inflight := [Origin.send] } (Event.complete ExtOutcome.err)
      = { { exSt with inflight := [Origin.send] } with
          messages := { exSt with inflight := [Origin.send] }.messages
            ++ [⟨Role.model, errFallback⟩],
          isLoading := false,
          inflight := [] } :=
  claim_C7_failure_absorbed { exSt with inflight := [Origin.send] }
    Origin.send [] rfl

/-! ### Claim C8 -/

/-- Claim C8: a staged pending query is consumed exactly once. The slot is
cleared in the same synchronous step as the read, consumption happens only
when the session handle is bound and no reply is in flight, and staging a
query then firing the notification trigger twice appends exactly one `user`
turn; the second trigger finds the slot empty and changes nothing. -/
theorem claim_C8_pending_query_once (st : SessionState) (hist : List Msg)
    (sel : List Char) (h1 : st.isLoading = false)
    (h2 : st.sessionHist = some hist) (h3 : sel ≠ []) :
    (runEvents st [Event.stage sel, Event.trigger, Event.trigger]).messages
      = st.messages ++ [⟨Role.user, trimJS (askQuery sel)⟩]
    ∧ (runEvents st [Event.stage sel, Event.trigger, Event.trigger]).pending = none
    ∧ (runEvents st [Event.stage sel, Event.trigger, Event.trigger]).inflight
      = st.inflight ++ [Origin.send]
    ∧ (∀ st2 : SessionState, st2.pending = none → step st2 Event.trigger = st2) := by
  have hstage : step st (Event.stage sel) = { st with pending := some (askQuery sel) } := by
    show handleAskTutor st sel = _
    rw [handleAskTutor, if_neg h3]
  have htrig : step { st with pending := some (askQuery sel) } Event.trigger
      = { st with
          messages := st.messages ++ [⟨Role.user, trimJS (askQuery sel)⟩],
          isLoading := true,
          inflight := st.inflight ++ [Origin.send],
          pending := none } := by
    simp only [step]
    rw [checkForPendingQuery]
    simp only [h2, h1]
    rw [processMessage, if_neg (trim_askQuery_ne_nil sel)]
    simp [h2, h1]
  have hnone : ∀ st2 : SessionState, st2.pending = none → step st2 Event.trigger = st2 := by
    intro st2 hp
    show checkForPendingQuery st2 = st2
    rw [checkForPendingQuery, hp]
  have hrun : runEvents st [Event.stage sel, Event.trigger, Event.trigger]
      = { st with
          messages := st.messages ++ [⟨Role.user, trimJS (askQuery sel)⟩],
          isLoading := true,
          inflight := st.inflight ++ [Origin.send],
          pending := none } := by
    show step (step (step st (Event.stage sel)) Event.trigger) Event.trigger = _
    rw [hstage, htrig]
    exact hnone _ rfl
  rw [hrun]
  exact ⟨rfl, rfl, rfl, hnone⟩

/-- Witness for C8: staging `osmosis` and firing the trigger twice from the
idle two-turn example state appends exactly one user turn. -/
theorem claim_C8_witness :
    (runEvents exSt
        [Event.stage "osmosis".toList, Event.trigger, Event.trigger]).messages
      = exSt.messages ++ [⟨Role.user, trimJS (askQuery "osmosis".toList)⟩]
    ∧ (runEvents exSt
        [Event.stage "osmosis".toList, Event.trigger, Event.trigger]).pending = none
    ∧ (runEvents exSt
        [Event.stage "osmosis".toList, Event.trigger, Event.trigger]).inflight
      = exSt.inflight ++ [Origin.send]
    ∧ (∀ st2 : SessionState, st2.pending = none → step st2 Event.trigger = st2) :=
  claim_C8_pending_query_once exSt exPrev "osmosis".toList rfl rfl (by decide)

/-! ### Claim C10 -/

/-- Claim C10: `ChatSession.sendMessage` from `createChatSession` is total
and never rejects — every external outcome resolves to a reply string, with
a thrown error converted to the fixed error fallback and an empty reply text
replaced by the fixed empty-reply fallback, so the resolved reply is always
non-empty; consequently the completion of a `send` always appends the
resolved reply as the `model` turn, and `processMessage`'s catch branch is
never taken for errors originating in the external request. -/
theorem claim_C10_sendMessage_total (st : SessionState) (o : ExtOutcome)
    (rest : List Origin) (h : st.inflight = Origin.send :: rest) :
    (∀ o2 : ExtOutcome, sendMessage o2 = Except.ok (okReply o2) ∧ okReply o2 ≠ [])
    ∧ step st (Event.complete o)
      = { st with
          messages := st.messages ++ [⟨Role.model, okReply o⟩],
          isLoading := false,
          inflight := rest } := by
  refine ⟨fun o2 => ⟨sendMessage_eq_ok o2, okReply_ne_nil o2⟩, ?_⟩
  show completeReply st o = _
  rw [completeReply, h, sendMessage_eq_ok o]

/-- Witness for C10: a failing request completing a `send` from the two-turn
example state appends the non-empty error fallback, not an exception. -/
theorem claim_C10_witness :
    (∀ o2 : ExtOutcome, sendMessage o2 = Except.ok (okReply o2) ∧ okReply o2 ≠ [])
    ∧ step { exSt with inflight := [Origin.send] } (Event.complete ExtOutcome.err)
      = { { exSt with inflight := [Origin.send] } with
          messages := { exSt with inflight := [Origin.send] }.messages
            ++ [⟨Role.model, okReply ExtOutcome.err⟩],
          isLoading := false,
          inflight := [] } :=
  claim_C10_sendMessage_total { exSt with inflight := [Origin.send] }
    ExtOutcome.err [] rfl

end ClassEase
